import Mathlib

/-!
Verification development for the `piltextbox` text-layout engine.

The Python sources (`piltextbox/textbox/TextBox.py` and
`piltextbox/textbox/formatting/formatparser.py`) are shallowly embedded
below.  Python strings are modelled as `List Char`; pixel measurement
(PIL's `ImageDraw.textsize`) is an external collaborator and is modelled
as an explicit function `FWord → Nat × Nat` plus a space width, carried
in a `TBEnv` record.  Python's `ZeroDivisionError` (reachable in
`TextBox._write_fline`) is modelled by an explicit `crash` result.
Integer division on possibly-negative quantities uses `Int.ediv` /
`Int.emod`, which agree with Python's floor division and `%` for the
positive divisors that occur here.
-/

namespace Piltextbox

/-- Python strings are sequences of characters. -/
abbrev Str := List Char

/-- Python `str.strip(chars)`: drop the given characters from both ends. -/
def stripChars (cs : List Char) (s : Str) : Str :=
  ((s.dropWhile (fun c => cs.contains c)).reverse.dropWhile (fun c => cs.contains c)).reverse

/-- Python `str.strip()` (no argument): drop whitespace from both ends.
(Lean's `Char.isWhitespace` covers space, tab, CR and LF; Python
additionally strips `\f`/`\v`, which do not occur in the texts modelled
here.) -/
def stripWhitespaceEnds (s : Str) : Str :=
  ((s.dropWhile Char.isWhitespace).reverse.dropWhile Char.isWhitespace).reverse

/-- Python `str.split(sep)` for a single-character separator: split at every
occurrence, keeping empty pieces (so `''.split(' ') == ['']`). -/
def splitOnChar (sep : Char) : Str → List Str
  | [] => [[]]
  | c :: rest =>
    if c = sep then [] :: splitOnChar sep rest
    else
      match splitOnChar sep rest with
      | [] => [[c]]
      | w :: ws => (c :: w) :: ws

/-- The normalization shared by `flat_parse` and `format_parse_deep`:
`text.strip('\r\n')`, then `replace('\r', '\n')`, then `replace('\n', ' ')`. -/
def normalize_text (text : Str) : Str :=
  ((stripChars ['\r', '\n'] text).map (fun c => if c = '\r' then '\n' else c)).map
    (fun c => if c = '\n' then ' ' else c)

/-- `formatparser.FWord`: the text of a word, its bold/italic styling,
whether a space may follow it, and whether it is an indent. -/
structure FWord where
  txt : Str
  bold : Bool
  ital : Bool
  xspace : Bool
  is_indent : Bool
deriving DecidableEq, Repr

/-- The four recognized format codes `('<b>', '</b>', '<i>', '</i>')`. -/
def format_codes : List Str :=
  ["<b>".toList, "</b>".toList, "<i>".toList, "</i>".toList]

/-- `txt.startswith(format_codes)`. -/
def startsWithAnyCode (txt : Str) : Bool :=
  format_codes.any (fun c => c.isPrefixOf txt)

/-- `txt.endswith(format_codes)`. -/
def endsWithAnyCode (txt : Str) : Bool :=
  format_codes.any (fun c => c.isSuffixOf txt)

/-- The two bold format codes, selected by the bold state they encode:
`<b>` for `true`, `</b>` for `false`. -/
def boldTag (v : Bool) : Str :=
  if v then "<b>".toList else "</b>".toList

/-- One pass of the front-culling `while` loop body in `format_parse_deep`:
four sequential `if txt.startswith(...)` checks, each updating the running
bold/ital state immediately and dropping the code from the front. -/
def cullFrontStep (txt : Str) (bold ital : Bool) : Str × Bool × Bool :=
  let p1 := if ("<b>".toList).isPrefixOf txt then (txt.drop 3, true) else (txt, bold)
  let p2 := if ("</b>".toList).isPrefixOf p1.1 then (p1.1.drop 4, false) else p1
  let p3 := if ("<i>".toList).isPrefixOf p2.1 then (p2.1.drop 3, true) else (p2.1, ital)
  let p4 := if ("</i>".toList).isPrefixOf p3.1 then (p3.1.drop 4, false) else p3
  (p4.1, p2.2, p4.2)

/-- The front-culling `while True:` loop of `format_parse_deep`, with explicit
fuel.  Each iteration that runs removes at least three characters, so fuel
`txt.length` always suffices. -/
def cullFrontFuel : Nat → Str → Bool → Bool → Str × Bool × Bool
  | 0, txt, b, i => (txt, b, i)
  | f + 1, txt, b, i =>
    if startsWithAnyCode txt then
      let r := cullFrontStep txt b i
      cullFrontFuel f r.1 r.2.1 r.2.2
    else (txt, b, i)

/-- `txt[:-n]`: drop the last `n` characters. -/
def dropSuffixN (txt : Str) (n : Nat) : Str :=
  txt.take (txt.length - n)

/-- One pass of the back-culling `while` loop body in `format_parse_deep`:
four sequential `if txt.endswith(...)` checks, each appending the code's
value to the `all_bold` / `all_ital` list and dropping the code from the
back.  (`aB`, `aI` are the running `all_bold`, `all_ital` lists.) -/
def cullBackStep (txt : Str) (aB aI : List Bool) : Str × List Bool × List Bool :=
  let q1 := if ("<b>".toList).isSuffixOf txt then (dropSuffixN txt 3, aB ++ [true]) else (txt, aB)
  let q2 := if ("</b>".toList).isSuffixOf q1.1 then (dropSuffixN q1.1 4, q1.2 ++ [false]) else q1
  let q3 := if ("<i>".toList).isSuffixOf q2.1 then (dropSuffixN q2.1 3, aI ++ [true]) else (q2.1, aI)
  let q4 := if ("</i>".toList).isSuffixOf q3.1 then (dropSuffixN q3.1 4, q3.2 ++ [false]) else q3
  (q4.1, q2.2, q4.2)

/-- The back-culling `while True:` loop of `format_parse_deep`, with explicit
fuel (fuel `txt.length` always suffices: each iteration removes at least
three characters). -/
def cullBackFuel : Nat → Str → List Bool → List Bool → Str × List Bool × List Bool
  | 0, txt, aB, aI => (txt, aB, aI)
  | f + 1, txt, aB, aI =>
    if endsWithAnyCode txt then
      let r := cullBackStep txt aB aI
      cullBackFuel f r.1 r.2.1 r.2.2
    else (txt, aB, aI)

/-- The body of the `for word in raw_words:` loop of `format_parse_deep` for a
single token: cull codes from the front (updating the state immediately),
cull codes from the back (collecting their values), optionally emit an
`FWord`, and compute the carry-over bold/ital state
(`all_bold.append(bold); bold = all_bold[0]`). -/
def processToken (word : Str) (bold ital discard_formatting : Bool) :
    Option FWord × Bool × Bool :=
  let f := cullFrontFuel word.length word bold ital
  let txt1 := f.1
  let bold1 := f.2.1
  let ital1 := f.2.2
  let g := cullBackFuel txt1.length txt1 [] []
  let txt2 := g.1
  let all_bold := g.2.1 ++ [bold1]
  let all_ital := g.2.2 ++ [ital1]
  let emitted : Option FWord :=
    if 0 < txt2.length then
      some (if discard_formatting then FWord.mk txt2 false false true false
            else FWord.mk txt2 bold1 ital1 true false)
    else none
  (emitted, all_bold.headD bold1, all_ital.headD ital1)

/-- The token loop of `format_parse_deep`, threading the bold/ital state. -/
def format_parse_deep_go (discard_formatting : Bool) :
    List Str → Bool → Bool → List FWord × Bool × Bool
  | [], b, i => ([], b, i)
  | w :: ws, b, i =>
    let r := processToken w b i discard_formatting
    let rest := format_parse_deep_go discard_formatting ws r.2.1 r.2.2
    (match r.1 with
     | some fw => fw :: rest.1
     | none => rest.1, rest.2.1, rest.2.2)

/-- `formatparser.format_parse_deep`: split normalized text into tokens and
parse each, returning the words and the final bold/ital state. -/
def format_parse_deep (text : Str) (discard_formatting start_bold start_ital : Bool) :
    List FWord × Bool × Bool :=
  format_parse_deep_go discard_formatting (splitOnChar ' ' (normalize_text text))
    start_bold start_ital

/-- `formatparser.format_parse`: same, discarding the final state. -/
def format_parse (text : Str) (discard_formatting : Bool) : List FWord :=
  (format_parse_deep text discard_formatting false false).1

/-- `formatparser.flat_parse`: one plain `FWord` per space-delimited token of
the normalized text (no emptiness filter, no format-code handling). -/
def flat_parse (text : Str) : List FWord :=
  (splitOnChar ' ' (normalize_text text)).map (fun w => FWord.mk w false false true false)

/-- `formatparser.all_parse`: dispatch on the `formatting` flag. -/
def all_parse (text : Str) (formatting discard_formatting : Bool) : List FWord :=
  if formatting then format_parse text discard_formatting else flat_parse text

/-- `formatparser.FLine`: a line of formatted text.  `staged` holds the
transient staged word list (`None` when no write attempt is outstanding).
The `fword_info` measurement cache of the Python class is modelled by the
ambient measurement environment (`TBEnv`) instead of a per-line field. -/
structure FLine where
  fwords : List FWord
  justifiable : Bool
  staged : Option (List FWord)
deriving DecidableEq, Repr

/-- `formatparser.PLine`: a line of plain text. -/
structure PLine where
  txt : Str
  justifiable : Bool
  staged : Option Str
deriving DecidableEq, Repr

/-- `FLine._stage`: copy `fwords` into `staged`, inserting an indent `FWord`
at the front when an indent string is given.  (As in the source, the indent
word is created with `xspace=False` and the default `is_indent=False`.) -/
def FLine._stage (l : FLine) (indent : Option Str) : FLine :=
  match indent with
  | some s => { l with staged := some (FWord.mk s false false false false :: l.fwords) }
  | none => { l with staged := some l.fwords }

/-- `FLine._unstage`: discard the staged attempt. -/
def FLine._unstage (l : FLine) : FLine :=
  { l with staged := none }

/-- The element loop of `FLine.simplify`: append each word's text, followed by
a space when the word is not the last element and permits a trailing space;
words are skipped entirely when `exclude_indent` is set and their
`is_indent` flag is true. -/
def simplifyFWords : List FWord → Bool → Str
  | [], _ => []
  | [fw], exclude_indent =>
    if exclude_indent ∧ fw.is_indent then [] else fw.txt
  | fw :: fw2 :: rest, exclude_indent =>
    (if exclude_indent ∧ fw.is_indent then []
     else fw.txt ++ (if fw.xspace then [' '] else [])) ++
      simplifyFWords (fw2 :: rest) exclude_indent

/-- `FLine.simplify`: the plain text of the line. -/
def FLine.simplify (l : FLine) (exclude_indent : Bool) : Str :=
  simplifyFWords l.fwords exclude_indent

/-- `FLine.to_pline`: convert to a plain line, keeping `justifiable`. -/
def FLine.to_pline (l : FLine) (exclude_indent : Bool) : PLine :=
  PLine.mk (l.simplify exclude_indent) l.justifiable none

/-- `PLine.simplify`: the text, with `lstrip(' ')` when excluding the indent. -/
def PLine.simplify (p : PLine) (exclude_indent : Bool) : Str :=
  if exclude_indent then p.txt.dropWhile (fun c => c = ' ' ) else p.txt

/-- `PLine._stage`: set `staged` to the text, with the indent prepended when
an indent string is given. -/
def PLine._stage (p : PLine) (indent : Option Str) : PLine :=
  match indent with
  | some s => { p with staged := some (s ++ p.txt) }
  | none => { p with staged := some p.txt }

/-- `PLine._unstage`: discard the staged attempt. -/
def PLine._unstage (p : PLine) : PLine :=
  { p with staged := none }

/-- `formatparser.UnwrittenLines` (formatted variant): the queue of unwritten
`FLine`s plus the transient `staged` reference to the line currently being
attempted. -/
structure UnwrittenLines where
  lines : List FLine
  staged : Option FLine
deriving DecidableEq, Repr

/-- `UnwrittenLines.simplify`: the plain text of every queued line. -/
def UnwrittenLines.simplify (u : UnwrittenLines) (exclude_indent : Bool) : List Str :=
  u.lines.map (fun l => l.simplify exclude_indent)

/-- `UnwrittenLines.remaining`: how many lines remain unwritten. -/
def UnwrittenLines.remaining (u : UnwrittenLines) : Nat :=
  u.lines.length

/-- The measurement environment: the external PIL text-measurement
collaborator, keyed per word (`measure fw` is `textsize(fw.txt, font)` for
the word's styling), the width of one space character in the main font, the
writable-area dimensions, the height of one text line (`textsize('XT')`),
and the configured line spacing. -/
structure TBEnv where
  measure : FWord → Nat × Nat
  space_w : Nat
  im_width : Nat
  im_height : Nat
  text_line_height : Nat
  spacing : Nat

/-- The cursor attributes of a `TextBox`: the always-present `text_cursor`
plus any further cursors created via `setattr` under their own names. -/
structure Cursors where
  text_cursor : Int × Int
  named : List (String × (Int × Int))
deriving DecidableEq, Repr

/-- `getattr(self, cursor, self.text_cursor)`: read a named cursor, silently
falling back to `text_cursor` when the name is not an existing attribute. -/
def getattr_cursor (cs : Cursors) (name : String) : Int × Int :=
  if name = "text_cursor" then cs.text_cursor
  else (cs.named.lookup name).getD cs.text_cursor

/-- `getattr(self, cursor, None)`: the same lookup without a fallback. -/
def getattr_cursor_opt (cs : Cursors) (name : String) : Option (Int × Int) :=
  if name = "text_cursor" then some cs.text_cursor
  else cs.named.lookup name

/-- `TextBox.set_cursor`: `setattr(self, cursor, coord)`. -/
def set_cursor (cs : Cursors) (coord : Int × Int) (name : String) : Cursors :=
  if name = "text_cursor" then { cs with text_cursor := coord }
  else { cs with named := (name, coord) :: cs.named }

/-- `TextBox.lines_left`: how many more lines fit between the cursor's `y`
and the bottom of the textbox. -/
def lines_left (env : TBEnv) (cs : Cursors) (cursor : String) : Int :=
  let y_current := (getattr_cursor cs cursor).2
  let y_remain := (env.im_height : Int) - y_current - (env.text_line_height : Int)
  if y_remain < 0 then 0
  else 1 + y_remain / ((env.text_line_height : Int) + (env.spacing : Int))

/-- `TextBox.on_last_line`. -/
def on_last_line (env : TBEnv) (cs : Cursors) (cursor : String) : Bool :=
  lines_left env cs cursor = 1

/-- `TextBox.is_exhausted`. -/
def is_exhausted (env : TBEnv) (cs : Cursors) (cursor : String) : Bool :=
  lines_left env cs cursor = 0

/-- `TextBox.at_new_line`: whether the cursor's `x` is `0`. -/
def at_new_line (cs : Cursors) (cursor : String) : Bool :=
  (getattr_cursor cs cursor).1 = 0

/-- `TextBox.update_cursor`: add `xy_delta` to the cursor read with fallback,
returning the coord and (when committing) storing it under the given name. -/
def update_cursor (cs : Cursors) (xy_delta : Int × Int) (cursor : String) (commit : Bool) :
    (Int × Int) × Cursors :=
  let c0 := getattr_cursor cs cursor
  let coord := (c0.1 + xy_delta.1, c0.2 + xy_delta.2)
  (coord, if commit then set_cursor cs coord cursor else cs)

/-- `TextBox.next_line_cursor`: move to `x = 0`, one line height plus spacing
further down. -/
def next_line_cursor (env : TBEnv) (cs : Cursors) (cursor : String) (commit : Bool) :
    (Int × Int) × Cursors :=
  let y0 := (getattr_cursor cs cursor).2
  let coord := ((0 : Int), y0 + (env.text_line_height : Int) + (env.spacing : Int))
  (coord, if commit then set_cursor cs coord cursor else cs)

/-- `TextBox.same_line_cursor`: move right by `xy_delta.x` (plus one space
width when `add_space`; the `space_font` parameter defaults to the main
font, whose space width is `env.space_w`), wrapping to the next line when
the right edge is reached unless `prevent_linebreak`. -/
def same_line_cursor (env : TBEnv) (cs : Cursors) (xy_delta : Int × Int) (cursor : String)
    (commit add_space prevent_linebreak : Bool) : (Int × Int) × Cursors :=
  let c0 := getattr_cursor cs cursor
  let space_px : Int := if add_space then env.space_w else 0
  let x1 := c0.1 + xy_delta.1 + space_px
  if ¬prevent_linebreak ∧ (env.im_width : Int) ≤ x1 then
    next_line_cursor env cs cursor commit
  else
    ((x1, c0.2), if commit then set_cursor cs (x1, c0.2) cursor else cs)

/-- `TextBox._check_cursor_overshoot`: the cursor name falls back to
`'text_cursor'` when it does not point at an existing coord; then the
hypothetical moved coord is compared against the writable area. -/
def _check_cursor_overshoot (env : TBEnv) (cs : Cursors) (xy_delta : Int × Int)
    (cursor : String) : Int × Int :=
  let cursor1 := if (getattr_cursor_opt cs cursor).isSome then cursor else "text_cursor"
  let c := (update_cursor cs xy_delta cursor1 false).1
  (c.1 - env.im_width, c.2 - env.im_height)

/-- `TextBox._check_legal_cursor`: legal iff neither overshoot is positive. -/
def _check_legal_cursor (env : TBEnv) (cs : Cursors) (xy_delta : Int × Int)
    (cursor : String) : Bool :=
  let o := _check_cursor_overshoot env cs xy_delta cursor
  if 0 < o.1 ∨ 0 < o.2 then false else true

/-- The result record of `FLine._extract_fword_info`: total word width (no
spaces), max word height, total line width including spaces, the space
width, and the number of space positions (`total_spaces`). -/
structure LineInfo where
  line_word_w : Nat
  line_word_h : Nat
  line_w : Nat
  space_w : Nat
  total_spaces : Nat
deriving DecidableEq, Repr

/-- The target-list loop of `FLine._extract_fword_info`: a space is counted
after every word except the last, and only when the word's `xspace` permits
it. -/
def extractInfoList (env : TBEnv) : List FWord → LineInfo
  | [] => LineInfo.mk 0 0 0 env.space_w 0
  | [fw] =>
    let m := env.measure fw
    LineInfo.mk m.1 m.2 m.1 env.space_w 0
  | fw :: fw2 :: rest =>
    let m := env.measure fw
    let r := extractInfoList env (fw2 :: rest)
    LineInfo.mk (m.1 + r.line_word_w) (max m.2 r.line_word_h)
      (m.1 + (if fw.xspace then env.space_w else 0) + r.line_w)
      env.space_w
      ((if fw.xspace then 1 else 0) + r.total_spaces)

/-- `FLine._extract_fword_info`: measure the staged list when `use_staged`
and a staged attempt exists, else the committed `fwords`. -/
def FLine._extract_fword_info (l : FLine) (env : TBEnv) (use_staged : Bool) : LineInfo :=
  let target := if use_staged then l.staged.getD l.fwords else l.fwords
  extractInfoList env target

/-- The number of space-permitting word gaps of a list: one per word that is
not the last element and has `xspace` (the same count as
`(extractInfoList _ t).total_spaces`). -/
def countGaps : List FWord → Nat
  | [] => 0
  | [_] => 0
  | fw :: fw2 :: rest => (if fw.xspace then 1 else 0) + countGaps (fw2 :: rest)

/-- The word-writing loop of `TextBox._write_fline`, restricted to its
observable horizontal effect: the sequence of space advances written at the
gaps.  After each word except the last whose `xspace` permits a space, the
advance is `spwd` plus one extra pixel while `bonus_sp_px` lasts — but is
reset to a single space character's width when not justifying (the bonus is
still consumed, as in the source). -/
def gapWidthsLoop : List FWord → Int → Int → Nat → Bool → List Int
  | [], _, _, _, _ => []
  | [_], _, _, _, _ => []
  | fw :: fw2 :: rest, spwd, bonus_sp_px, space_w, justify =>
    if fw.xspace then
      let extra : Int := if 0 < bonus_sp_px then 1 else 0
      let space : Int := if justify then spwd + extra else (space_w : Int)
      space :: gapWidthsLoop (fw2 :: rest) spwd (bonus_sp_px - extra) space_w justify
    else gapWidthsLoop (fw2 :: rest) spwd bonus_sp_px space_w justify

/-- The per-gap division of `TextBox._write_fline`: zero when the staged list
has no more than one word; otherwise `px_all_spaces // total_spaces` and
`px_all_spaces % total_spaces` — which in Python raises `ZeroDivisionError`
when `total_spaces == 0`, modelled by `none`. -/
def fline_division (staged_len total_spaces : Nat) (px_all_spaces : Int) :
    Option (Int × Int) :=
  if staged_len = 0 ∨ staged_len = 1 then some (0, 0)
  else if total_spaces = 0 then none
  else some (px_all_spaces / (total_spaces : Int), px_all_spaces % (total_spaces : Int))

/-- Conversion of the `indent` parameter (a number of space characters) into
the indent string, as done at the top of `_write_fline` / `_write_pline`. -/
def indent_str (indent : Option Nat) : Option Str :=
  indent.map (fun n => List.replicate n ' ' )

/-- The outcome of one line-writing attempt: a Python exception
(`ZeroDivisionError`), a rejection returning the unwritten line, or a
successful write carrying the advanced cursor state and the space advances
used at the word gaps. -/
inductive FWResult where
  | crash : FWResult
  | rejected : FLine → FWResult
  | written : Cursors → List Int → FWResult
deriving DecidableEq, Repr

/-- `TextBox._write_fline`: stage the line (prepending the indent, if any),
measure it, derive the per-gap space width and remainder, reject when the
width is illegal (negative slack or per-gap width below one space's width —
not overridable when justifying), reject when the height check fails (unless
overridden), else write and advance the cursor to the next line.  Drawing is
an external side effect; its observable layout content is the gap-advance
list. -/
def _write_fline (env : TBEnv) (cs : Cursors) (cursor : String) (fline_obj : FLine)
    (override_legal_check : Bool) (indent : Option Nat) (justify : Bool) : FWResult :=
  let st := FLine._stage fline_obj (indent_str indent)
  let fwords := st.staged.getD []
  let line_info := FLine._extract_fword_info st env true
  let px_all_spaces : Int := (env.im_width : Int) - (line_info.line_word_w : Int)
  match fline_division fwords.length line_info.total_spaces px_all_spaces with
  | none => FWResult.crash
  | some (spwd, bonus_sp_px) =>
    if (px_all_spaces < 0 ∨ spwd < (line_info.space_w : Int)) ∧
        (justify = true ∨ override_legal_check = false) then
      FWResult.rejected (FLine._unstage st)
    else if ¬(override_legal_check = true ∨
        _check_legal_cursor env cs (0, (line_info.line_word_h : Int)) cursor = true) then
      FWResult.rejected (FLine._unstage st)
    else
      FWResult.written (next_line_cursor env cs cursor true).2
        (gapWidthsLoop fwords spwd bonus_sp_px line_info.space_w justify)

/-- `TextBox.write_line`, for an `FLine` argument: return the line unwritten
when reserving the last line, else write via `_write_fline` with
`justify=(justify and justifiable)`. -/
def write_line (env : TBEnv) (cs : Cursors) (cursor : String) (text : FLine)
    (reserve_last_line override_legal_check : Bool) (indent : Option Nat)
    (justify : Bool) : FWResult :=
  if reserve_last_line = true ∧ on_last_line env cs cursor = true then
    FWResult.rejected text
  else
    _write_fline env cs cursor text override_legal_check indent
      (justify ∧ text.justifiable)

/-- The outcome of `TextBox.write_paragraph`: a crash, or the final cursor
state together with the `UnwrittenLines` value the method returns (empty
when everything was written). -/
inductive WPResult where
  | crash : WPResult
  | returned : Cursors → UnwrittenLines → WPResult
deriving DecidableEq, Repr

/-- The `while unwritten.remaining > 0:` loop of `TextBox.write_paragraph`:
check `reserve_last_line`, stage the front line, attempt `write_line`; on
failure unstage (queue untouched) and return the whole remaining queue; on
success pop the front line and continue.  The queue's `staged` field is
`none` on every return path, as in the source. -/
def write_paragraph (env : TBEnv) (cursor : String)
    (reserve_last_line override_legal_check justify : Bool) :
    Cursors → List FLine → WPResult
  | cs, [] => WPResult.returned cs (UnwrittenLines.mk [] none)
  | cs, l :: rest =>
    if reserve_last_line = true ∧ on_last_line env cs cursor = true then
      WPResult.returned cs (UnwrittenLines.mk (l :: rest) none)
    else
      match write_line env cs cursor l reserve_last_line override_legal_check none justify with
      | FWResult.crash => WPResult.crash
      | FWResult.rejected _ => WPResult.returned cs (UnwrittenLines.mk (l :: rest) none)
      | FWResult.written cs1 _ =>
        write_paragraph env cursor reserve_last_line override_legal_check justify cs1 rest

/-- The `while len(fwords) > 0:` loop of `TextBox._wrap_text_TESTING` for one
rough line: try appending the next word to the candidate; on overflow emit
the current line as a justifiable `FLine` and restart from the later indent
plus the overflowing word; otherwise accept the candidate, adding a trailing
space width when the word permits one.  After the loop, the trailing
candidate is emitted as a non-justifiable `FLine` when
`current_line_to_add == candidate_line_list or last_word_is_candidate`. -/
def packLoop (env : TBEnv) (later_indent : FWord) :
    List FWord → List FWord → List FWord → Bool → Nat → List FLine → List FLine
  | [], current_line_to_add, candidate_line_list, last_word_is_candidate, _, acc =>
    if current_line_to_add = candidate_line_list ∨ last_word_is_candidate = true then
      acc ++ [FLine.mk current_line_to_add false none]
    else acc
  | new_fword :: fwords, current_line_to_add, _, _, cur_w, acc =>
    let candidate_line_list := current_line_to_add ++ [new_fword]
    let w := (env.measure new_fword).1
    let cand_w := cur_w + w + env.space_w
    if env.im_width < cand_w then
      let nl := FLine.mk current_line_to_add true none
      let current1 := [later_indent, new_fword]
      let cur_w1 := (env.measure later_indent).1 + (env.measure new_fword).1
      packLoop env later_indent fwords current1 candidate_line_list true cur_w1 (acc ++ [nl])
    else
      let cur_w1 := cand_w + (if new_fword.xspace then env.space_w else 0)
      packLoop env later_indent fwords candidate_line_list candidate_line_list false cur_w1 acc

/-- One rough line of `TextBox._wrap_text_TESTING` (nonempty parsed words):
start the candidate as the indent word plus the first word, then run the
packing loop. -/
def packRoughLine (env : TBEnv) (indent later_indent : FWord) (fwords : List FWord) :
    List FLine :=
  match fwords with
  | [] => []
  | first :: rest =>
    let current_line_to_add := [indent, first]
    let cur_w := (env.measure indent).1 + (env.measure first).1
    packLoop env later_indent rest current_line_to_add current_line_to_add false cur_w []

/-- The `for rough_line in rough_lines:` loop of `_wrap_text_TESTING`: the
first processed rough line uses the paragraph indent, later ones the
new-line indent; an empty rough line is skipped without incrementing the
rough-line counter (as in the source's `continue`). -/
def wrapRoughLines (env : TBEnv) (first_indent later_indent : FWord)
    (formatting discard_formatting : Bool) : List Str → Nat → List FLine
  | [], _ => []
  | rough_line :: rest, rl_count =>
    let indent := if rl_count = 0 then first_indent else later_indent
    let fwords := all_parse (stripWhitespaceEnds rough_line) formatting discard_formatting
    if fwords.length = 0 then
      wrapRoughLines env first_indent later_indent formatting discard_formatting rest rl_count
    else
      packRoughLine env indent later_indent fwords ++
        wrapRoughLines env first_indent later_indent formatting discard_formatting rest
          (rl_count + 1)

/-- `TextBox._wrap_text_TESTING` (formatted output): normalize linebreaks,
split into rough lines, pack each, and collect the result into an
`UnwrittenLines` queue.  The paragraph/new-line indent words are created
with `xspace=False` and the default `is_indent=False`, as in the source. -/
def _wrap_text_TESTING (env : TBEnv) (text : Str)
    (paragraph_indent new_line_indent : Nat) (formatting discard_formatting : Bool) :
    UnwrittenLines :=
  let rough_lines :=
    splitOnChar '\n'
      ((stripChars ['\r', '\n'] text).map (fun c => if c = '\r' then '\n' else c))
  let first_indent := FWord.mk (List.replicate paragraph_indent ' ' ) false false false false
  let later_indent := FWord.mk (List.replicate new_line_indent ' ' ) false false false false
  UnwrittenLines.mk
    (wrapRoughLines env first_indent later_indent formatting discard_formatting rough_lines 0)
    none

/-- `TextBox._wrap_text_TESTING` with `formatting=False`: each produced
`FLine` is converted to a `PLine` at creation, which is the same as mapping
the conversion over the formatted output. -/
def _wrap_text_TESTING_plain (env : TBEnv) (text : Str)
    (paragraph_indent new_line_indent : Nat) (discard_formatting : Bool) : List PLine :=
  (_wrap_text_TESTING env text paragraph_indent new_line_indent false discard_formatting).lines.map
    (fun l => l.to_pline false)

/-- The sequence of candidate widths the packing loop checks against
`im_width`, starting from a given current width: each entry is
`cur_w + word width + space_w`, and acceptance adds a further trailing
space width when the word permits one. -/
def cand_widths (env : TBEnv) : List FWord → Nat → List Nat
  | [], _ => []
  | fw :: rest, cur_w =>
    let cand := cur_w + (env.measure fw).1 + env.space_w
    cand :: cand_widths env rest (cand + (if fw.xspace then env.space_w else 0))

/-- The single-space-separated joining of word texts — the spec's
"normalized" text: the same words in order, single-space separated. -/
def joinWords : List Str → Str
  | [] => []
  | [w] => w
  | w :: w2 :: rest => w ++ [' '] ++ joinWords (w2 :: rest)

/-- A concrete deterministic measurement collaborator for witnesses: every
character is one pixel wide and every word one pixel tall. -/
def measure1 (fw : FWord) : Nat × Nat :=
  (fw.txt.length, 1)

/-- A concrete measurement environment for witnesses. -/
def env1 : TBEnv :=
  TBEnv.mk measure1 1 100 50 5 4

/-- A freshly initialized cursor state (`text_cursor = (0, 0)`, no other
cursor attributes). -/
def cs0 : Cursors :=
  Cursors.mk (0, 0) []

/-- The word list a staged line holds: the committed words, preceded by an
indent word when an indent string is given. -/
def staged_list (l : FLine) (o : Option Str) : List FWord :=
  match o with
  | some s => FWord.mk s false false false false :: l.fwords
  | none => l.fwords

/-- The slack of a staged line write: the available width minus the total
width of the staged words (the `px_all_spaces` of `_write_fline`). -/
def fline_slack (env : TBEnv) (l : FLine) (indent : Option Nat) : Int :=
  (env.im_width : Int) -
    ((extractInfoList env (staged_list l (indent_str indent))).line_word_w : Int)

/-! Helper lemmas. -/

theorem getattr_cursor_text_cursor (cs : Cursors) :
    getattr_cursor cs "text_cursor" = cs.text_cursor := by
  simp [getattr_cursor]

theorem getattr_cursor_unknown (cs : Cursors) (name : String)
    (h1 : name ≠ "text_cursor") (h2 : cs.named.lookup name = none) :
    getattr_cursor cs name = cs.text_cursor := by
  simp [getattr_cursor, h1, h2]

theorem FLine.stage_staged (l : FLine) (o : Option Str) :
    (FLine._stage l o).staged = some (staged_list l o) := by
  cases o <;> rfl

theorem FLine.stage_fwords (l : FLine) (o : Option Str) :
    (FLine._stage l o).fwords = l.fwords := by
  cases o <;> rfl

theorem FLine.stage_justifiable (l : FLine) (o : Option Str) :
    (FLine._stage l o).justifiable = l.justifiable := by
  cases o <;> rfl

theorem FLine.unstage_stage (l : FLine) (o : Option Str) :
    FLine._unstage (FLine._stage l o) = FLine.mk l.fwords l.justifiable none := by
  cases o <;> rfl

theorem extract_stage (l : FLine) (o : Option Str) (env : TBEnv) :
    FLine._extract_fword_info (FLine._stage l o) env true =
      extractInfoList env (staged_list l o) := by
  cases o <;> rfl

theorem stage_staged_getD (l : FLine) (o : Option Str) :
    (FLine._stage l o).staged.getD [] = staged_list l o := by
  cases o <;> rfl

theorem extractInfoList_space_w (env : TBEnv) (t : List FWord) :
    (extractInfoList env t).space_w = env.space_w := by
  match t with
  | [] => rfl
  | [fw] => rfl
  | fw :: fw2 :: rest => rfl

theorem extractInfoList_total_spaces (env : TBEnv) (t : List FWord) :
    (extractInfoList env t).total_spaces = countGaps t := by
  induction t with
  | nil => rfl
  | cons fw rest ih =>
    cases rest with
    | nil => rfl
    | cons fw2 rest2 =>
      simp only [extractInfoList, countGaps]
      rw [ih]

theorem gapWidthsLoop_justify_map (sw : Nat) (t : List FWord) :
    ∀ (spwd bonus : Int), 0 ≤ bonus →
      gapWidthsLoop t spwd bonus sw true =
        (List.range (countGaps t)).map
          (fun (k : Nat) => spwd + if (k : Int) < bonus then 1 else 0) := by
  induction t with
  | nil => intro spwd bonus _; rfl
  | cons fw rest ih =>
    intro spwd bonus hb
    cases rest with
    | nil => rfl
    | cons fw2 rest2 =>
      by_cases hx : fw.xspace = true
      · have hcg : countGaps (fw :: fw2 :: rest2) = countGaps (fw2 :: rest2) + 1 := by
          simp only [countGaps, hx, if_true]
          omega
        by_cases hbpos : 0 < bonus
        · have hgap : gapWidthsLoop (fw :: fw2 :: rest2) spwd bonus sw true =
              (spwd + 1) :: gapWidthsLoop (fw2 :: rest2) spwd (bonus - 1) sw true := by
            norm_num [gapWidthsLoop, hx, hbpos]
          rw [hgap, hcg, List.range_succ_eq_map, List.map_cons, List.map_map,
            ih spwd (bonus - 1) (by omega)]
          congr 1
          · rw [Nat.cast_zero, if_pos hbpos]
          · refine List.map_congr_left ?_
            intro k _
            simp only [Function.comp]
            by_cases hk : (k : Int) < bonus - 1
            · rw [if_pos hk, if_pos (by push_cast; omega)]
            · rw [if_neg hk, if_neg (by push_cast; omega)]
        · have hbz : bonus = 0 := by omega
          subst hbz
          have hgap : gapWidthsLoop (fw :: fw2 :: rest2) spwd 0 sw true =
              spwd :: gapWidthsLoop (fw2 :: rest2) spwd 0 sw true := by
            norm_num [gapWidthsLoop, hx]
          rw [hgap, hcg, List.range_succ_eq_map, List.map_cons, List.map_map,
            ih spwd 0 le_rfl]
          refine List.cons_eq_cons.mpr ⟨by rw [Nat.cast_zero, if_neg (by omega)]; omega, ?_⟩
          refine List.map_congr_left ?_
          intro k _
          simp only [Function.comp]
          rw [if_neg (by omega), if_neg (by push_cast; omega)]
      · have hx' : fw.xspace = false := by
          simpa using hx
        have hgap : gapWidthsLoop (fw :: fw2 :: rest2) spwd bonus sw true =
            gapWidthsLoop (fw2 :: rest2) spwd bonus sw true := by
          norm_num [gapWidthsLoop, hx']
        have hcg : countGaps (fw :: fw2 :: rest2) = countGaps (fw2 :: rest2) := by
          norm_num [countGaps, hx']
        rw [hgap, hcg, ih spwd bonus hb]

theorem sum_range_gap (q : Int) (n : Nat) :
    ∀ (r : Int), 0 ≤ r →
      (((List.range n).map (fun (k : Nat) => q + if (k : Int) < r then 1 else 0)).sum) =
        q * n + min r n := by
  induction n with
  | zero =>
    intro r hr
    simp [min_eq_right hr]
  | succ n ih =>
    intro r hr
    rw [List.range_succ, List.map_append, List.sum_append, ih r hr]
    simp only [List.map_cons, List.map_nil, List.sum_cons, List.sum_nil]
    have hmin : min r ((n : Int) + 1) = min r (n : Int) + (if (n : Int) < r then 1 else 0) := by
      split_ifs with h <;> omega
    push_cast
    rw [hmin]
    split_ifs with h <;> ring

/-! Claim theorems. -/

/-- Claim C9: `lines_left` equals
`1 + (R - line_height) div (line_height + spacing)` when the remaining
height `R` is at least one line height, and `0` otherwise; consequently a
canvas exactly `line_height` tall has `lines_left = 1` and is on its last
line, and one of height `line_height - 1` has `lines_left = 0` and is
exhausted. -/
theorem lines_left_formula_and_boundaries :
    (∀ (env : TBEnv) (cs : Cursors) (cursor : String),
      lines_left env cs cursor =
        if (env.text_line_height : Int) ≤
            (env.im_height : Int) - (getattr_cursor cs cursor).2 then
          1 + ((env.im_height : Int) - (getattr_cursor cs cursor).2 -
            (env.text_line_height : Int)) /
              ((env.text_line_height : Int) + (env.spacing : Int))
        else 0) ∧
    (∀ (m : FWord → Nat × Nat) (sw imw lh sp : Nat),
      lines_left (TBEnv.mk m sw imw lh lh sp) cs0 "text_cursor" = 1 ∧
      on_last_line (TBEnv.mk m sw imw lh lh sp) cs0 "text_cursor" = true) ∧
    (∀ (m : FWord → Nat × Nat) (sw imw lh sp : Nat), 0 < lh →
      lines_left (TBEnv.mk m sw imw (lh - 1) lh sp) cs0 "text_cursor" = 0 ∧
      is_exhausted (TBEnv.mk m sw imw (lh - 1) lh sp) cs0 "text_cursor" = true) := by
  refine ⟨?_, ?_, ?_⟩
  · intro env cs cursor
    simp only [lines_left]
    split_ifs with h1 h2 h3 <;> first
      | rfl
      | omega
  · intro m sw imw lh sp
    have hll : lines_left (TBEnv.mk m sw imw lh lh sp) cs0 "text_cursor" = 1 := by
      simp [lines_left, getattr_cursor, cs0, Int.zero_ediv]
    exact ⟨hll, by simp [on_last_line, hll]⟩
  · intro m sw imw lh sp hlh
    have hcast : ((lh - 1 : Nat) : Int) = (lh : Int) - 1 := by
      omega
    have hll : lines_left (TBEnv.mk m sw imw (lh - 1) lh sp) cs0 "text_cursor" = 0 := by
      simp only [lines_left, getattr_cursor, cs0]
      norm_num [hcast]
    exact ⟨hll, by simp [is_exhausted, hll]⟩

/-- Witness for C9 at a concrete configuration. -/
theorem lines_left_formula_and_boundaries_witness :
    lines_left (TBEnv.mk measure1 1 100 4 5 2) cs0 "text_cursor" = 0 ∧
    is_exhausted (TBEnv.mk measure1 1 100 4 5 2) cs0 "text_cursor" = true :=
  lines_left_formula_and_boundaries.2.2 measure1 1 100 5 2 (by decide)

/-- Claim C10: a cursor name that is not an existing attribute silently reads
the default `text_cursor` position in `lines_left`, `at_new_line`,
`on_last_line`, `update_cursor`, `next_line_cursor` and `same_line_cursor`,
and the committing operations store the resulting coord under the given
name. -/
theorem unknown_cursor_falls_back_to_text_cursor
    (env : TBEnv) (cs : Cursors) (name : String) (d : Int × Int)
    (h1 : name ≠ "text_cursor") (h2 : cs.named.lookup name = none) :
    getattr_cursor cs name = cs.text_cursor ∧
    lines_left env cs name = lines_left env cs "text_cursor" ∧
    at_new_line cs name = at_new_line cs "text_cursor" ∧
    on_last_line env cs name = on_last_line env cs "text_cursor" ∧
    (update_cursor cs d name true).1 = (update_cursor cs d "text_cursor" true).1 ∧
    getattr_cursor (update_cursor cs d name true).2 name =
      (update_cursor cs d "text_cursor" true).1 ∧
    (next_line_cursor env cs name true).1 = (next_line_cursor env cs "text_cursor" true).1 ∧
    getattr_cursor (next_line_cursor env cs name true).2 name =
      (next_line_cursor env cs "text_cursor" true).1 ∧
    (same_line_cursor env cs d name true true false).1 =
      (same_line_cursor env cs d "text_cursor" true true false).1 := by
  have hget : getattr_cursor cs name = cs.text_cursor := getattr_cursor_unknown cs name h1 h2
  have hgettc : getattr_cursor cs "text_cursor" = cs.text_cursor := getattr_cursor_text_cursor cs
  refine ⟨hget, ?_, ?_, ?_, ?_, ?_, ?_, ?_, ?_⟩
  · simp [lines_left, hget, hgettc]
  · simp [at_new_line, hget, hgettc]
  · simp [on_last_line, lines_left, hget, hgettc]
  · simp [update_cursor, hget, hgettc]
  · simp [update_cursor, set_cursor, getattr_cursor, hget, hgettc, h1, h2]
  · simp [next_line_cursor, hget, hgettc]
  · simp [next_line_cursor, set_cursor, getattr_cursor, hget, hgettc, h1, h2]
  · simp only [same_line_cursor, next_line_cursor, hget, hgettc]
    split_ifs <;> rfl

/-- Witness for C10 at a concrete cursor state and unknown name. -/
theorem unknown_cursor_falls_back_to_text_cursor_witness :
    getattr_cursor (Cursors.mk (3, 4) [("other", (7, 8))]) "nope" = (3, 4) ∧
    lines_left env1 (Cursors.mk (3, 4) [("other", (7, 8))]) "nope" =
      lines_left env1 (Cursors.mk (3, 4) [("other", (7, 8))]) "text_cursor" ∧
    at_new_line (Cursors.mk (3, 4) [("other", (7, 8))]) "nope" =
      at_new_line (Cursors.mk (3, 4) [("other", (7, 8))]) "text_cursor" ∧
    on_last_line env1 (Cursors.mk (3, 4) [("other", (7, 8))]) "nope" =
      on_last_line env1 (Cursors.mk (3, 4) [("other", (7, 8))]) "text_cursor" ∧
    (update_cursor (Cursors.mk (3, 4) [("other", (7, 8))]) (1, 2) "nope" true).1 =
      (update_cursor (Cursors.mk (3, 4) [("other", (7, 8))]) (1, 2) "text_cursor" true).1 ∧
    getattr_cursor (update_cursor (Cursors.mk (3, 4) [("other", (7, 8))]) (1, 2) "nope" true).2
        "nope" =
      (update_cursor (Cursors.mk (3, 4) [("other", (7, 8))]) (1, 2) "text_cursor" true).1 ∧
    (next_line_cursor env1 (Cursors.mk (3, 4) [("other", (7, 8))]) "nope" true).1 =
      (next_line_cursor env1 (Cursors.mk (3, 4) [("other", (7, 8))]) "text_cursor" true).1 ∧
    getattr_cursor
        (next_line_cursor env1 (Cursors.mk (3, 4) [("other", (7, 8))]) "nope" true).2 "nope" =
      (next_line_cursor env1 (Cursors.mk (3, 4) [("other", (7, 8))]) "text_cursor" true).1 ∧
    (same_line_cursor env1 (Cursors.mk (3, 4) [("other", (7, 8))]) (1, 2) "nope"
        true true false).1 =
      (same_line_cursor env1 (Cursors.mk (3, 4) [("other", (7, 8))]) (1, 2) "text_cursor"
        true true false).1 :=
  unknown_cursor_falls_back_to_text_cursor env1 (Cursors.mk (3, 4) [("other", (7, 8))])
    "nope" (1, 2) (by decide) (by decide)

theorem processToken_emit_txt_ne_nil {w : Str} {b i d : Bool} {fw : FWord}
    (h : (processToken w b i d).1 = some fw) : fw.txt ≠ [] := by
  simp only [processToken] at h
  split at h
  · rename_i hlen
    split at h <;>
      (injection h with h; subst h; exact List.ne_nil_of_length_pos hlen)
  · exact absurd h (by simp)

theorem format_parse_deep_go_no_empty (d : Bool) :
    ∀ (ws : List Str) (b i : Bool) (fw : FWord),
      fw ∈ (format_parse_deep_go d ws b i).1 → fw.txt ≠ [] := by
  intro ws
  induction ws with
  | nil => intro b i fw h; simp [format_parse_deep_go] at h
  | cons w ws ih =>
    intro b i fw h
    simp only [format_parse_deep_go] at h
    rcases hpt : (processToken w b i d).1 with _ | fw'
    · rw [hpt] at h
      exact ih _ _ fw h
    · rw [hpt] at h
      rcases List.mem_cons.mp h with h | h
      · exact h ▸ processToken_emit_txt_ne_nil hpt
      · exact ih _ _ fw h

/-- Claim C8 (amended): in the markup-honoring parser (`format_parse_deep`,
for every input text, start state, and discard flag) no emitted `FWord` has
empty text.  The flat parser does not satisfy this — see the
counterexample. -/
theorem format_parse_no_empty_words (text : Str) (d b i : Bool) (fw : FWord)
    (h : fw ∈ (format_parse_deep text d b i).1) : fw.txt ≠ [] :=
  format_parse_deep_go_no_empty d _ b i fw h

/-- Counterexample for C8 as stated: the flat parser emits an empty-text
`FWord` for the empty token between two consecutive spaces. -/
theorem flat_parse_emits_empty_word :
    FWord.mk [] false false true false ∈ flat_parse ("a  b".toList) := by decide

/-- Witness for C8's amended theorem at a concrete input. -/
theorem format_parse_no_empty_words_witness :
    FWord.mk ("x".toList) true false true false ∈
      (format_parse_deep ("<b>x".toList) false false false).1 ∧
    (FWord.mk ("x".toList) true false true false).txt ≠ [] :=
  ⟨by decide,
   format_parse_no_empty_words ("<b>x".toList) false false false
     (FWord.mk ("x".toList) true false true false) (by decide)⟩

theorem isPrefixOf_append_self (l y : List Char) : l.isPrefixOf (l ++ y) = true := by
  induction l with
  | nil => cases y <;> rfl
  | cons a as ih => simp [List.isPrefixOf, ih]

theorem isSuffixOf_append_self (x c : List Char) : c.isSuffixOf (x ++ c) = true := by
  show (c.reverse).isPrefixOf ((x ++ c).reverse) = true
  rw [List.reverse_append]
  exact isPrefixOf_append_self _ _

theorem suffix_ob_cb (x : Str) : ("<b>".toList).isSuffixOf (x ++ "</b>".toList) = false := by
  show (("<b>".toList).reverse).isPrefixOf ((x ++ "</b>".toList).reverse) = false
  rw [List.reverse_append]
  show (['>', 'b', '<'] : Str).isPrefixOf (['>', 'b', '/', '<'] ++ x.reverse) = false
  simp [List.isPrefixOf]

theorem suffix_cb_ob (x : Str) : ("</b>".toList).isSuffixOf (x ++ "<b>".toList) = false := by
  show (("</b>".toList).reverse).isPrefixOf ((x ++ "<b>".toList).reverse) = false
  rw [List.reverse_append]
  show (['>', 'b', '/', '<'] : Str).isPrefixOf (['>', 'b', '<'] ++ x.reverse) = false
  simp [List.isPrefixOf]

theorem suffix_oi_ob (x : Str) : ("<i>".toList).isSuffixOf (x ++ "<b>".toList) = false := by
  show (("<i>".toList).reverse).isPrefixOf ((x ++ "<b>".toList).reverse) = false
  rw [List.reverse_append]
  show (['>', 'i', '<'] : Str).isPrefixOf (['>', 'b', '<'] ++ x.reverse) = false
  simp [List.isPrefixOf]

theorem suffix_oi_cb (x : Str) : ("<i>".toList).isSuffixOf (x ++ "</b>".toList) = false := by
  show (("<i>".toList).reverse).isPrefixOf ((x ++ "</b>".toList).reverse) = false
  rw [List.reverse_append]
  show (['>', 'i', '<'] : Str).isPrefixOf (['>', 'b', '/', '<'] ++ x.reverse) = false
  simp [List.isPrefixOf]

theorem suffix_ci_ob (x : Str) : ("</i>".toList).isSuffixOf (x ++ "<b>".toList) = false := by
  show (("</i>".toList).reverse).isPrefixOf ((x ++ "<b>".toList).reverse) = false
  rw [List.reverse_append]
  show (['>', 'i', '/', '<'] : Str).isPrefixOf (['>', 'b', '<'] ++ x.reverse) = false
  simp [List.isPrefixOf]

theorem suffix_ci_cb (x : Str) : ("</i>".toList).isSuffixOf (x ++ "</b>".toList) = false := by
  show (("</i>".toList).reverse).isPrefixOf ((x ++ "</b>".toList).reverse) = false
  rw [List.reverse_append]
  show (['>', 'i', '/', '<'] : Str).isPrefixOf (['>', 'b', '/', '<'] ++ x.reverse) = false
  simp [List.isPrefixOf]

theorem ends_false_components (t : Str) (h : endsWithAnyCode t = false) :
    ("<b>".toList).isSuffixOf t = false ∧ ("</b>".toList).isSuffixOf t = false ∧
    ("<i>".toList).isSuffixOf t = false ∧ ("</i>".toList).isSuffixOf t = false := by
  simp only [endsWithAnyCode, format_codes, List.any_cons, List.any_nil,
    Bool.or_eq_false_iff] at h
  exact ⟨h.1, h.2.1, h.2.2.1, h.2.2.2.1⟩

theorem dropSuffixN_append (x c : Str) : dropSuffixN (x ++ c) c.length = x := by
  simp only [dropSuffixN, List.length_append]
  rw [show x.length + c.length - c.length = x.length by omega]
  exact List.take_left x c

theorem dropSuffixN_append_ob (x : Str) : dropSuffixN (x ++ "<b>".toList) 3 = x :=
  dropSuffixN_append x ("<b>".toList)

theorem dropSuffixN_append_cb (x : Str) : dropSuffixN (x ++ "</b>".toList) 4 = x :=
  dropSuffixN_append x ("</b>".toList)

theorem cullBackFuel_succ (f : Nat) (txt : Str) (aB aI : List Bool) :
    cullBackFuel (f + 1) txt aB aI =
      if endsWithAnyCode txt then
        cullBackFuel f (cullBackStep txt aB aI).1 (cullBackStep txt aB aI).2.1
          (cullBackStep txt aB aI).2.2
      else (txt, aB, aI) := rfl

theorem cullBackFuel_not_ends (f : Nat) (txt : Str) (aB aI : List Bool)
    (h : endsWithAnyCode txt = false) : cullBackFuel f txt aB aI = (txt, aB, aI) := by
  cases f with
  | zero => rfl
  | succ f => rw [cullBackFuel_succ]; simp [h]

theorem cullFrontFuel_not_starts (f : Nat) (txt : Str) (b i : Bool)
    (h : startsWithAnyCode txt = false) : cullFrontFuel f txt b i = (txt, b, i) := by
  cases f with
  | zero => rfl
  | succ f => simp [cullFrontFuel, h]

theorem cullBackFuel_bold_pair (base : Str) (hback : endsWithAnyCode base = false) :
    ∀ (v1 v2 : Bool) (aB aI : List Bool) (f : Nat),
      cullBackFuel (f + 2) (base ++ boldTag v1 ++ boldTag v2) aB aI =
        (base, aB ++ [v2, v1], aI) := by
  obtain ⟨hb1, hb2, hb3, hb4⟩ := ends_false_components base hback
  intro v1 v2 aB aI f
  have hsucc2 : f + 2 = (f + 1) + 1 := rfl
  cases v1 <;> cases v2
  · -- v1 = false (`</b>`), v2 = false (`</b>`)
    show cullBackFuel (f + 2) (base ++ "</b>".toList ++ "</b>".toList) aB aI =
      (base, aB ++ [false, false], aI)
    have hends1 : endsWithAnyCode (base ++ "</b>".toList ++ "</b>".toList) = true := by
      simp only [endsWithAnyCode, format_codes, List.any_cons, List.any_nil,
        isSuffixOf_append_self, Bool.or_true, Bool.true_or, Bool.or_false]
    have hstep1 : cullBackStep (base ++ "</b>".toList ++ "</b>".toList) aB aI =
        (base ++ "</b>".toList, aB ++ [false], aI) := by
      simp only [cullBackStep, suffix_ob_cb, isSuffixOf_append_self, suffix_oi_cb,
        suffix_ci_cb, dropSuffixN_append_cb, Bool.false_eq_true, if_false, if_true,
        eq_self_iff_true]
    have hends2 : endsWithAnyCode (base ++ "</b>".toList) = true := by
      simp only [endsWithAnyCode, format_codes, List.any_cons, List.any_nil,
        isSuffixOf_append_self, Bool.or_true, Bool.true_or, Bool.or_false]
    have hstep2 : cullBackStep (base ++ "</b>".toList) (aB ++ [false]) aI =
        (base, aB ++ [false] ++ [false], aI) := by
      simp only [cullBackStep, suffix_ob_cb, isSuffixOf_append_self, hb1, hb2, hb3, hb4,
        dropSuffixN_append_cb, Bool.false_eq_true, if_false, if_true, eq_self_iff_true]
    rw [hsucc2, cullBackFuel_succ]
    simp only [hends1, if_true, eq_self_iff_true, hstep1]
    rw [cullBackFuel_succ]
    simp only [hends2, if_true, eq_self_iff_true, hstep2]
    rw [cullBackFuel_not_ends f base _ _ hback]
    simp
  · -- v1 = false (`</b>`), v2 = true (`<b>`): both tags stripped in one pass
    show cullBackFuel (f + 2) (base ++ "</b>".toList ++ "<b>".toList) aB aI =
      (base, aB ++ [true, false], aI)
    have hends1 : endsWithAnyCode (base ++ "</b>".toList ++ "<b>".toList) = true := by
      simp only [endsWithAnyCode, format_codes, List.any_cons, List.any_nil,
        isSuffixOf_append_self, Bool.or_true, Bool.true_or, Bool.or_false]
    have hstep1 : cullBackStep (base ++ "</b>".toList ++ "<b>".toList) aB aI =
        (base, aB ++ [true] ++ [false], aI) := by
      simp only [cullBackStep, isSuffixOf_append_self, dropSuffixN_append_ob,
        dropSuffixN_append_cb, hb3, hb4, Bool.false_eq_true, if_false, if_true,
        eq_self_iff_true]
    rw [hsucc2, cullBackFuel_succ]
    simp only [hends1, if_true, eq_self_iff_true, hstep1]
    rw [cullBackFuel_not_ends (f + 1) base _ _ hback]
    simp
  · -- v1 = true (`<b>`), v2 = false (`</b>`)
    show cullBackFuel (f + 2) (base ++ "<b>".toList ++ "</b>".toList) aB aI =
      (base, aB ++ [false, true], aI)
    have hends1 : endsWithAnyCode (base ++ "<b>".toList ++ "</b>".toList) = true := by
      simp only [endsWithAnyCode, format_codes, List.any_cons, List.any_nil,
        isSuffixOf_append_self, Bool.or_true, Bool.true_or, Bool.or_false]
    have hstep1 : cullBackStep (base ++ "<b>".toList ++ "</b>".toList) aB aI =
        (base ++ "<b>".toList, aB ++ [false], aI) := by
      simp only [cullBackStep, suffix_ob_cb, isSuffixOf_append_self, suffix_oi_ob,
        suffix_ci_ob, dropSuffixN_append_cb, Bool.false_eq_true, if_false, if_true,
        eq_self_iff_true]
    have hends2 : endsWithAnyCode (base ++ "<b>".toList) = true := by
      simp only [endsWithAnyCode, format_codes, List.any_cons, List.any_nil,
        isSuffixOf_append_self, Bool.or_true, Bool.true_or, Bool.or_false]
    have hstep2 : cullBackStep (base ++ "<b>".toList) (aB ++ [false]) aI =
        (base, aB ++ [false] ++ [true], aI) := by
      simp only [cullBackStep, isSuffixOf_append_self, hb2, hb3, hb4,
        dropSuffixN_append_ob, Bool.false_eq_true, if_false, if_true, eq_self_iff_true]
    rw [hsucc2, cullBackFuel_succ]
    simp only [hends1, if_true, eq_self_iff_true, hstep1]
    rw [cullBackFuel_succ]
    simp only [hends2, if_true, eq_self_iff_true, hstep2]
    rw [cullBackFuel_not_ends f base _ _ hback]
    simp
  · -- v1 = true (`<b>`), v2 = true (`<b>`)
    show cullBackFuel (f + 2) (base ++ "<b>".toList ++ "<b>".toList) aB aI =
      (base, aB ++ [true, true], aI)
    have hends1 : endsWithAnyCode (base ++ "<b>".toList ++ "<b>".toList) = true := by
      simp only [endsWithAnyCode, format_codes, List.any_cons, List.any_nil,
        isSuffixOf_append_self, Bool.or_true, Bool.true_or, Bool.or_false]
    have hstep1 : cullBackStep (base ++ "<b>".toList ++ "<b>".toList) aB aI =
        (base ++ "<b>".toList, aB ++ [true], aI) := by
      simp only [cullBackStep, suffix_cb_ob, isSuffixOf_append_self, suffix_oi_ob,
        suffix_ci_ob, dropSuffixN_append_ob, Bool.false_eq_true, if_false, if_true,
        eq_self_iff_true]
    have hends2 : endsWithAnyCode (base ++ "<b>".toList) = true := by
      simp only [endsWithAnyCode, format_codes, List.any_cons, List.any_nil,
        isSuffixOf_append_self, Bool.or_true, Bool.true_or, Bool.or_false]
    have hstep2 : cullBackStep (base ++ "<b>".toList) (aB ++ [true]) aI =
        (base, aB ++ [true] ++ [true], aI) := by
      simp only [cullBackStep, isSuffixOf_append_self, hb2, hb3, hb4,
        dropSuffixN_append_ob, Bool.false_eq_true, if_false, if_true, eq_self_iff_true]
    rw [hsucc2, cullBackFuel_succ]
    simp only [hends1, if_true, eq_self_iff_true, hstep1]
    rw [cullBackFuel_succ]
    simp only [hends2, if_true, eq_self_iff_true, hstep2]
    rw [cullBackFuel_not_ends f base _ _ hback]
    simp

theorem processToken_trailing_tag_carry (base : Str) (b i d : Bool) (v1 v2 : Bool)
    (hfront : startsWithAnyCode (base ++ boldTag v1 ++ boldTag v2) = false)
    (hback : endsWithAnyCode base = false) :
    (processToken (base ++ boldTag v1 ++ boldTag v2) b i d).2.1 = v2 := by
  have hL : (base ++ boldTag v1 ++ boldTag v2).length =
      ((base ++ boldTag v1 ++ boldTag v2).length - 2) + 2 := by
    have h2 : 3 ≤ (boldTag v2).length := by cases v2 <;> simp [boldTag]
    simp only [List.length_append]
    omega
  simp only [processToken]
  rw [cullFrontFuel_not_starts _ _ _ _ hfront]
  simp only []
  rw [hL, cullBackFuel_bold_pair base hback v1 v2 [] []
    ((base ++ boldTag v1 ++ boldTag v2).length - 2)]
  simp

/-- Claim C7: parsing `"<b>foo</b> bar"` with markup honored yields exactly
the two words `foo` (bold) and `bar` (plain); in general the emitted word's
style is the state after front-tag culling (so front tags apply to the word
immediately and trailing tags never affect the word they trail); among two
trailing bold tags on one token, the carry-over state for subsequent tokens
is always the value of the rightmost tag — the first one collected scanning
from the right — whatever the inner tag and prior state are; the concrete
pairs `…</b><b>` and `…<b></b>` carry over `true` and `false`
respectively. -/
theorem markup_front_immediate_trailing_prospective :
    format_parse ("<b>foo</b> bar".toList) false =
      [FWord.mk ("foo".toList) true false true false,
       FWord.mk ("bar".toList) false false true false] ∧
    (∀ (w : Str) (b i : Bool) (fw : FWord),
      (processToken w b i false).1 = some fw →
        fw.bold = (cullFrontFuel w.length w b i).2.1 ∧
        fw.ital = (cullFrontFuel w.length w b i).2.2) ∧
    (∀ (base : Str) (b i : Bool) (v1 v2 : Bool),
      startsWithAnyCode (base ++ boldTag v1 ++ boldTag v2) = false →
      endsWithAnyCode base = false →
      (processToken (base ++ boldTag v1 ++ boldTag v2) b i false).2.1 = v2) ∧
    format_parse ("foo</b><b> bar".toList) false =
      [FWord.mk ("foo".toList) false false true false,
       FWord.mk ("bar".toList) true false true false] ∧
    format_parse ("foo<b></b> bar".toList) false =
      [FWord.mk ("foo".toList) false false true false,
       FWord.mk ("bar".toList) false false true false] := by
  refine ⟨by decide, ?_, ?_, by decide, by decide⟩
  · intro w b i fw h
    simp only [processToken] at h
    split at h
    · rw [if_neg (by simp)] at h
      injection h with h
      subst h
      exact ⟨rfl, rfl⟩
    · exact absurd h (by simp)
  · intro base b i v1 v2 hf hb
    exact processToken_trailing_tag_carry base b i false v1 v2 hf hb

/-- Witness for C7's general conjuncts at concrete tokens. -/
theorem markup_front_immediate_trailing_prospective_witness :
    ((FWord.mk ("foo".toList) true false true false).bold =
      (cullFrontFuel ("<b>foo</b>".toList).length ("<b>foo</b>".toList) false false).2.1 ∧
    (FWord.mk ("foo".toList) true false true false).ital =
      (cullFrontFuel ("<b>foo</b>".toList).length ("<b>foo</b>".toList) false false).2.2) ∧
    (processToken ("foo".toList ++ boldTag false ++ boldTag true) false false false).2.1 =
      true :=
  ⟨markup_front_immediate_trailing_prospective.2.1 ("<b>foo</b>".toList) false false
    (FWord.mk ("foo".toList) true false true false) (by decide),
   markup_front_immediate_trailing_prospective.2.2.1 ("foo".toList) false false false true
    (by decide) (by decide)⟩

/-- Claim C2 (code bug): packing `"foo"` in formatted mode with a two-space
paragraph indent and flattening with indents excluded yields `"  foo"`, not
the normalized text `"foo"`: the packer creates its indent `FWord`s without
setting `is_indent`, so `FLine.simplify(exclude_indent=True)` never excludes
them. -/
theorem flatten_pack_keeps_indent_spaces :
    (_wrap_text_TESTING env1 ("foo".toList) 2 0 true false).simplify true =
      ["  foo".toList] ∧
    (_wrap_text_TESTING env1 ("foo".toList) 2 0 true false).simplify true ≠
      [joinWords [("foo".toList)]] := by
  exact ⟨by decide, by decide⟩

/-- Claim C6 (code bug): the full paragraph pipeline on the one-word text
`"hello"` (formatted mode) crashes with `ZeroDivisionError`: the staged line
`[indent, "hello"]` has two words, so the `len(fwords) in [0, 1]` guard does
not fire, and `px_all_spaces // total_spaces` divides by the zero gap count.
A bare one-word staged line under requested justification is rejected rather
than written unjustified (its computed per-gap width `0` is below one
space's width). -/
theorem write_fline_zero_gap_crash :
    write_paragraph env1 "text_cursor" false false false cs0
      (_wrap_text_TESTING env1 ("hello".toList) 0 0 true false).lines = WPResult.crash ∧
    _write_fline env1 cs0 "text_cursor"
      (FLine.mk [FWord.mk ("  ".toList) false false false false,
                 FWord.mk ("hello".toList) false false true false] true none)
      false none true = FWResult.crash ∧
    _write_fline env1 cs0 "text_cursor"
      (FLine.mk [FWord.mk ("hi".toList) false false true false] true none)
      false none true =
      FWResult.rejected (FLine.mk [FWord.mk ("hi".toList) false false true false] true none) := by
  exact ⟨by decide, by decide, by decide⟩

/-- Claim C5: when justification is requested and the computed per-gap
division succeeds but the width is illegal (negative slack, or a per-gap
width narrower than one space character), `_write_fline` rejects the line
and returns it unwritten — for every value of `override_legal_check`. -/
theorem justification_illegality_never_overridable
    (env : TBEnv) (cs : Cursors) (cursor : String) (l : FLine)
    (override_legal_check : Bool) (indent : Option Nat) (spwd bonus : Int)
    (hdiv : fline_division ((FLine._stage l (indent_str indent)).staged.getD []).length
        (FLine._extract_fword_info (FLine._stage l (indent_str indent)) env true).total_spaces
        ((env.im_width : Int) -
          ((FLine._extract_fword_info (FLine._stage l (indent_str indent)) env
            true).line_word_w : Int)) = some (spwd, bonus))
    (hill : (env.im_width : Int) -
          ((FLine._extract_fword_info (FLine._stage l (indent_str indent)) env
            true).line_word_w : Int) < 0 ∨
        spwd < ((FLine._extract_fword_info (FLine._stage l (indent_str indent)) env
          true).space_w : Int)) :
    _write_fline env cs cursor l override_legal_check indent true =
      FWResult.rejected (FLine.mk l.fwords l.justifiable none) := by
  simp only [_write_fline, hdiv]
  rw [if_pos ⟨hill, Or.inl trivial⟩, FLine.unstage_stage]

/-- Witness for C5: a line that is too wide for the box is rejected even with
`override_legal_check = true`. -/
theorem justification_illegality_never_overridable_witness :
    _write_fline (TBEnv.mk measure1 1 2 50 5 4) cs0 "text_cursor"
      (FLine.mk [FWord.mk ("aa".toList) false false true false,
                 FWord.mk ("bb".toList) false false true false] true none)
      true none true =
      FWResult.rejected
        (FLine.mk [FWord.mk ("aa".toList) false false true false,
                   FWord.mk ("bb".toList) false false true false] true none) :=
  justification_illegality_never_overridable (TBEnv.mk measure1 1 2 50 5 4) cs0 "text_cursor"
    (FLine.mk [FWord.mk ("aa".toList) false false true false,
               FWord.mk ("bb".toList) false false true false] true none)
    true none (-2) 0 (by decide) (by decide)

/-- Claim C1: whenever `_write_fline` writes a line with justification
requested (and a space character is at least one pixel wide), the staged
line has at least one space-permitting gap, the slack is nonnegative, the
written gap advances sum exactly to the slack, walking gaps left to right
the first `slack % gap_count` gaps get `slack / gap_count + 1` pixels and
the rest get `slack / gap_count`, and hence any two gap widths differ by at
most one pixel. -/
theorem justification_gap_widths_exact
    (env : TBEnv) (cs : Cursors) (cursor : String) (l : FLine)
    (override_legal_check : Bool) (indent : Option Nat) (cs' : Cursors) (gaps : List Int)
    (hsw : 1 ≤ env.space_w)
    (hw : _write_fline env cs cursor l override_legal_check indent true =
      FWResult.written cs' gaps) :
    0 < countGaps (staged_list l (indent_str indent)) ∧
    0 ≤ fline_slack env l indent ∧
    gaps.sum = fline_slack env l indent ∧
    gaps = (List.range (countGaps (staged_list l (indent_str indent)))).map
      (fun (k : Nat) =>
        fline_slack env l indent / (countGaps (staged_list l (indent_str indent)) : Int) +
          if (k : Int) <
              fline_slack env l indent % (countGaps (staged_list l (indent_str indent)) : Int)
            then 1 else 0) ∧
    (∀ g ∈ gaps,
      g = fline_slack env l indent / (countGaps (staged_list l (indent_str indent)) : Int) ∨
      g = fline_slack env l indent /
            (countGaps (staged_list l (indent_str indent)) : Int) + 1) := by
  simp only [_write_fline] at hw
  rw [stage_staged_getD, extract_stage] at hw
  rw [extractInfoList_space_w, extractInfoList_total_spaces] at hw
  rcases hdv : fline_division (staged_list l (indent_str indent)).length
      (countGaps (staged_list l (indent_str indent)))
      ((env.im_width : Int) -
        ((extractInfoList env (staged_list l (indent_str indent))).line_word_w : Int))
    with _ | ⟨spwd, bonus⟩
  · rw [hdv] at hw
    exact absurd hw (by simp)
  · rw [hdv] at hw
    simp only [] at hw
    split_ifs at hw with h1 h2
    case _ =>
      have hA : ¬((env.im_width : Int) -
            ((extractInfoList env (staged_list l (indent_str indent))).line_word_w : Int) < 0 ∨
          spwd < (env.space_w : Int)) := fun a => h1 ⟨a, Or.inl trivial⟩
      push_neg at hA
      injection hw with hcs hgaps
      simp only [fline_division] at hdv
      split_ifs at hdv with hlen hts
      · simp only [Option.some.injEq, Prod.mk.injEq] at hdv
        have hspwd0 : spwd = 0 := hdv.1.symm
        have : (1 : Int) ≤ (env.space_w : Int) := by exact_mod_cast hsw
        omega
      · simp only [Option.some.injEq, Prod.mk.injEq] at hdv
        obtain ⟨hspwd, hbonus⟩ := hdv
        have hn0 : 0 < countGaps (staged_list l (indent_str indent)) :=
          Nat.pos_of_ne_zero hts
        have hncast : (0 : Int) < (countGaps (staged_list l (indent_str indent)) : Int) := by
          exact_mod_cast hn0
        have hbnn : 0 ≤ bonus := by
          rw [← hbonus]
          exact Int.emod_nonneg _ (by omega)
        have hblt : bonus < (countGaps (staged_list l (indent_str indent)) : Int) := by
          rw [← hbonus]
          exact Int.emod_lt_of_pos _ hncast
        have hgaps' : gaps =
            gapWidthsLoop (staged_list l (indent_str indent)) spwd bonus env.space_w true :=
          hgaps.symm
        have hmap := gapWidthsLoop_justify_map env.space_w (staged_list l (indent_str indent))
          spwd bonus hbnn
        have hslack : fline_slack env l indent =
            (env.im_width : Int) -
              ((extractInfoList env (staged_list l (indent_str indent))).line_word_w : Int) :=
          rfl
        refine ⟨hn0, by rw [hslack]; exact hA.1, ?_, ?_, ?_⟩
        · rw [hgaps', hmap, sum_range_gap spwd _ bonus hbnn,
            min_eq_left (le_of_lt hblt), hslack, ← hspwd, ← hbonus,
            mul_comm]
          exact Int.ediv_add_emod _ _
        · rw [hgaps', hmap, hslack, hspwd, hbonus]
        · intro g hg
          rw [hgaps', hmap] at hg
          obtain ⟨k, _, hk⟩ := List.mem_map.mp hg
          rw [hslack, hspwd]
          by_cases hcond : (k : Int) < bonus
          · right
            rw [← hk, if_pos hcond]
          · left
            rw [← hk, if_neg hcond, add_zero]

/-- Witness for C1: a two-word line in a 100px box (word widths 2+2,
slack 96, one gap) is written with the single gap advance 96. -/
theorem justification_gap_widths_exact_witness :
    0 < countGaps (staged_list
      (FLine.mk [FWord.mk ("aa".toList) false false true false,
                 FWord.mk ("bb".toList) false false true false] true none) (indent_str none)) ∧
    0 ≤ fline_slack env1
      (FLine.mk [FWord.mk ("aa".toList) false false true false,
                 FWord.mk ("bb".toList) false false true false] true none) none ∧
    ([96] : List Int).sum = fline_slack env1
      (FLine.mk [FWord.mk ("aa".toList) false false true false,
                 FWord.mk ("bb".toList) false false true false] true none) none ∧
    ([96] : List Int) = (List.range (countGaps (staged_list
      (FLine.mk [FWord.mk ("aa".toList) false false true false,
                 FWord.mk ("bb".toList) false false true false] true none)
      (indent_str none)))).map
      (fun (k : Nat) =>
        fline_slack env1
            (FLine.mk [FWord.mk ("aa".toList) false false true false,
                       FWord.mk ("bb".toList) false false true false] true none) none /
            (countGaps (staged_list
              (FLine.mk [FWord.mk ("aa".toList) false false true false,
                         FWord.mk ("bb".toList) false false true false] true none)
              (indent_str none)) : Int) +
          if (k : Int) <
              fline_slack env1
                  (FLine.mk [FWord.mk ("aa".toList) false false true false,
                             FWord.mk ("bb".toList) false false true false] true none) none %
                (countGaps (staged_list
                  (FLine.mk [FWord.mk ("aa".toList) false false true false,
                             FWord.mk ("bb".toList) false false true false] true none)
                  (indent_str none)) : Int)
            then 1 else 0) ∧
    (∀ g ∈ ([96] : List Int),
      g = fline_slack env1
            (FLine.mk [FWord.mk ("aa".toList) false false true false,
                       FWord.mk ("bb".toList) false false true false] true none) none /
          (countGaps (staged_list
            (FLine.mk [FWord.mk ("aa".toList) false false true false,
                       FWord.mk ("bb".toList) false false true false] true none)
            (indent_str none)) : Int) ∨
      g = fline_slack env1
            (FLine.mk [FWord.mk ("aa".toList) false false true false,
                       FWord.mk ("bb".toList) false false true false] true none) none /
          (countGaps (staged_list
            (FLine.mk [FWord.mk ("aa".toList) false false true false,
                       FWord.mk ("bb".toList) false false true false] true none)
            (indent_str none)) : Int) + 1) :=
  justification_gap_widths_exact env1 cs0 "text_cursor"
    (FLine.mk [FWord.mk ("aa".toList) false false true false,
               FWord.mk ("bb".toList) false false true false] true none)
    false none (Cursors.mk (0, 9) []) [96] (by decide) (by decide)

theorem write_line_rejected_frame
    (env : TBEnv) (cs : Cursors) (cursor : String) (l : FLine)
    (reserve_last_line override_legal_check : Bool) (indent : Option Nat) (justify : Bool)
    (hres : ¬(reserve_last_line = true ∧ on_last_line env cs cursor = true))
    {r : FLine}
    (h : write_line env cs cursor l reserve_last_line override_legal_check indent justify =
      FWResult.rejected r) :
    r = FLine.mk l.fwords l.justifiable none := by
  simp only [write_line, if_neg hres] at h
  simp only [_write_fline] at h
  split at h
  · exact absurd h (by simp)
  · split_ifs at h with h1 h2 <;>
      (injection h with h'; rw [← h']; exact FLine.unstage_stage _ _)

/-- Claim C3: staging never alters a line's committed content — `_stage`
changes only the transient `staged` field of an `FLine`/`PLine` and
`_unstage` restores `staged = none` — and whenever `write_paragraph`
returns an overflow queue, that queue is a suffix of the input with
`staged = none`, and its front line (if any) is either reserved by
`reserve_last_line` or is exactly the line whose write attempt fails at the
returned cursor, returned unwritten with its word list unaltered. -/
theorem write_paragraph_failure_frame :
    (∀ (l : FLine) (o : Option Str),
      (FLine._stage l o).fwords = l.fwords ∧
      (FLine._stage l o).justifiable = l.justifiable ∧
      FLine._unstage (FLine._stage l o) = FLine.mk l.fwords l.justifiable none) ∧
    (∀ (p : PLine) (o : Option Str),
      (PLine._stage p o).txt = p.txt ∧
      (PLine._stage p o).justifiable = p.justifiable ∧
      PLine._unstage (PLine._stage p o) = PLine.mk p.txt p.justifiable none) ∧
    (∀ (env : TBEnv) (cursor : String) (reserve_last_line override_legal_check justify : Bool)
        (lines : List FLine) (cs cs' : Cursors) (q : UnwrittenLines),
      write_paragraph env cursor reserve_last_line override_legal_check justify cs lines =
        WPResult.returned cs' q →
      q.staged = none ∧ List.IsSuffix q.lines lines ∧
      ∀ hd tl, q.lines = hd :: tl →
        (reserve_last_line = true ∧ on_last_line env cs' cursor = true) ∨
        write_line env cs' cursor hd reserve_last_line override_legal_check none justify =
          FWResult.rejected (FLine.mk hd.fwords hd.justifiable none)) := by
  refine ⟨?_, ?_, ?_⟩
  · intro l o
    exact ⟨FLine.stage_fwords l o, FLine.stage_justifiable l o, FLine.unstage_stage l o⟩
  · intro p o
    cases o <;> exact ⟨rfl, rfl, rfl⟩
  · intro env cursor reserve_last_line override_legal_check justify lines
    induction lines with
    | nil =>
      intro cs cs' q h
      simp only [write_paragraph] at h
      injection h with h1 h2
      subst h1
      subst h2
      exact ⟨rfl, List.nil_suffix, fun hd tl heq => absurd heq (by simp)⟩
    | cons l rest ih =>
      intro cs cs' q h
      simp only [write_paragraph] at h
      split_ifs at h with hres
      · injection h with h1 h2
        subst h1
        subst h2
        refine ⟨rfl, List.suffix_refl _, ?_⟩
        intro hd tl heq
        exact Or.inl hres
      · rcases hwl : write_line env cs cursor l reserve_last_line override_legal_check
            none justify with _ | r | ⟨cs1, gaps⟩
        · rw [hwl] at h
          exact absurd h (by simp)
        · rw [hwl] at h
          injection h with h1 h2
          subst h1
          subst h2
          refine ⟨rfl, List.suffix_refl _, ?_⟩
          intro hd tl heq
          injection heq with e1 e2
          subst e1
          right
          rw [hwl]
          exact congrArg FWResult.rejected
            (write_line_rejected_frame env cs cursor l reserve_last_line
              override_legal_check none justify hres hwl)
        · rw [hwl] at h
          obtain ⟨hst, hsuf, hfr⟩ := ih cs1 cs' q h
          exact ⟨hst, hsuf.trans (List.suffix_cons l rest), hfr⟩

/-- Witness for C3: a queue whose front line does not fit (slack is negative
at a 2px-wide box) is returned whole, with the front line unaltered. -/
theorem write_paragraph_failure_frame_witness :
    (UnwrittenLines.mk
        [FLine.mk [FWord.mk ("aa".toList) false false true false,
                   FWord.mk ("bb".toList) false false true false] true none] none).staged =
      none ∧
    List.IsSuffix
      (UnwrittenLines.mk
        [FLine.mk [FWord.mk ("aa".toList) false false true false,
                   FWord.mk ("bb".toList) false false true false] true none] none).lines
      [FLine.mk [FWord.mk ("aa".toList) false false true false,
                 FWord.mk ("bb".toList) false false true false] true none] ∧
    (∀ hd tl,
      (UnwrittenLines.mk
        [FLine.mk [FWord.mk ("aa".toList) false false true false,
                   FWord.mk ("bb".toList) false false true false] true none] none).lines =
        hd :: tl →
      (false = true ∧ on_last_line (TBEnv.mk measure1 1 2 50 5 4) cs0 "text_cursor" = true) ∨
      write_line (TBEnv.mk measure1 1 2 50 5 4) cs0 "text_cursor" hd false false none false =
        FWResult.rejected (FLine.mk hd.fwords hd.justifiable none)) :=
  write_paragraph_failure_frame.2.2 (TBEnv.mk measure1 1 2 50 5 4) "text_cursor"
    false false false
    [FLine.mk [FWord.mk ("aa".toList) false false true false,
               FWord.mk ("bb".toList) false false true false] true none]
    cs0 cs0
    (UnwrittenLines.mk
      [FLine.mk [FWord.mk ("aa".toList) false false true false,
                 FWord.mk ("bb".toList) false false true false] true none] none)
    (by decide)

theorem packLoop_spec (env : TBEnv) (later_indent : FWord) :
    ∀ (rest current cand : List FWord) (lwc : Bool) (cur_w : Nat) (acc : List FLine),
      (current = cand ∨ lwc = true) →
      ∃ mids lastWords,
        packLoop env later_indent rest current cand lwc cur_w acc =
          acc ++ mids ++ [FLine.mk lastWords false none] ∧
        ∀ x ∈ mids, x.justifiable = true := by
  intro rest
  induction rest with
  | nil =>
    intro current cand lwc cur_w acc hinv
    refine ⟨[], current, ?_, by simp⟩
    simp only [packLoop]
    rw [if_pos hinv]
    simp
  | cons fw rest ih =>
    intro current cand lwc cur_w acc hinv
    simp only [packLoop]
    by_cases hover : env.im_width < cur_w + (env.measure fw).1 + env.space_w
    · rw [if_pos hover]
      obtain ⟨mids, lastW, heq, hmids⟩ :=
        ih [later_indent, fw] (current ++ [fw]) true
          ((env.measure later_indent).1 + (env.measure fw).1)
          (acc ++ [FLine.mk current true none]) (Or.inr rfl)
      refine ⟨FLine.mk current true none :: mids, lastW, ?_, ?_⟩
      · rw [heq]
        simp
      · intro x hx
        rcases List.mem_cons.mp hx with hx | hx
        · rw [hx]
        · exact hmids x hx
    · rw [if_neg hover]
      exact ih (current ++ [fw]) (current ++ [fw]) false _ acc (Or.inl rfl)

theorem packRoughLine_spec (env : TBEnv) (indent later_indent first : FWord)
    (rest : List FWord) :
    ∃ mids lastWords,
      packRoughLine env indent later_indent (first :: rest) =
        mids ++ [FLine.mk lastWords false none] ∧
      ∀ x ∈ mids, x.justifiable = true := by
  obtain ⟨mids, lastW, heq, hmids⟩ :=
    packLoop_spec env later_indent rest [indent, first] [indent, first] false
      ((env.measure indent).1 + (env.measure first).1) [] (Or.inl rfl)
  refine ⟨mids, lastW, ?_, hmids⟩
  simpa using heq

theorem processToken_emit_flags {w : Str} {b i d : Bool} {fw : FWord}
    (h : (processToken w b i d).1 = some fw) :
    fw.xspace = true ∧ fw.is_indent = false := by
  simp only [processToken] at h
  split at h
  · split at h <;> (injection h with h; subst h; exact ⟨rfl, rfl⟩)
  · exact absurd h (by simp)

theorem format_parse_deep_go_flags (d : Bool) :
    ∀ (ws : List Str) (b i : Bool) (fw : FWord),
      fw ∈ (format_parse_deep_go d ws b i).1 →
      fw.xspace = true ∧ fw.is_indent = false := by
  intro ws
  induction ws with
  | nil => intro b i fw h; simp [format_parse_deep_go] at h
  | cons w ws ih =>
    intro b i fw h
    simp only [format_parse_deep_go] at h
    rcases hpt : (processToken w b i d).1 with _ | fw'
    · rw [hpt] at h
      exact ih _ _ fw h
    · rw [hpt] at h
      rcases List.mem_cons.mp h with h | h
      · exact h ▸ processToken_emit_flags hpt
      · exact ih _ _ fw h

/-- Every word either parser emits permits a trailing space and is not
flagged as an indent: `flat_parse` and `format_parse` both construct their
`FWord`s with `xspace=True` and leave `is_indent` at its `False` default. -/
theorem all_parse_word_flags (text : Str) (formatting discard_formatting : Bool) :
    ∀ fw ∈ all_parse text formatting discard_formatting,
      fw.xspace = true ∧ fw.is_indent = false := by
  intro fw h
  by_cases hf : formatting = true
  · rw [all_parse, if_pos hf] at h
    exact format_parse_deep_go_flags discard_formatting _ false false fw h
  · rw [all_parse, if_neg hf] at h
    simp only [flat_parse, List.mem_map] at h
    obtain ⟨w, _, hw⟩ := h
    rw [← hw]
    exact ⟨rfl, rfl⟩

theorem packLoop_no_overflow (env : TBEnv) (later_indent : FWord) :
    ∀ (ws current : List FWord) (cur_w : Nat) (acc : List FLine),
      (∀ c ∈ cand_widths env ws cur_w, c ≤ env.im_width) →
      packLoop env later_indent ws current current false cur_w acc =
        acc ++ [FLine.mk (current ++ ws) false none] := by
  intro ws
  induction ws with
  | nil =>
    intro current cur_w acc _
    simp [packLoop]
  | cons fw ws ih =>
    intro current cur_w acc hfit
    have hc : cur_w + (env.measure fw).1 + env.space_w ≤ env.im_width :=
      hfit (cur_w + (env.measure fw).1 + env.space_w) (by simp [cand_widths])
    have htail : ∀ c ∈ cand_widths env ws
        (cur_w + (env.measure fw).1 + env.space_w +
          if fw.xspace then env.space_w else 0), c ≤ env.im_width := by
      intro c hcm
      apply hfit
      simp only [cand_widths, List.mem_cons]
      exact Or.inr hcm
    simp only [packLoop]
    rw [if_neg (by omega)]
    rw [ih (current ++ [fw]) _ acc htail]
    simp

/-- A rough line none of whose candidate widths overflows the box width is
packed as the single non-justifiable line holding the indent word and every
parsed word, in order. -/
theorem packRoughLine_no_overflow (env : TBEnv) (ind li first : FWord)
    (ws : List FWord)
    (hfit : ∀ c ∈ cand_widths env ws ((env.measure ind).1 + (env.measure first).1),
      c ≤ env.im_width) :
    packRoughLine env ind li (first :: ws) =
      [FLine.mk (ind :: first :: ws) false none] := by
  simp only [packRoughLine]
  rw [packLoop_no_overflow env li ws [ind, first]
    ((env.measure ind).1 + (env.measure first).1) [] hfit]
  simp

theorem simplifyFWords_xspace_join :
    ∀ (ws : List FWord), ws ≠ [] →
      (∀ w ∈ ws, w.xspace = true ∧ w.is_indent = false) →
      simplifyFWords ws true = joinWords (ws.map FWord.txt)
  | [], h, _ => absurd rfl h
  | [fw], _, hall => by
    have h1 := hall fw (by simp)
    simp [simplifyFWords, joinWords, h1.2]
  | fw :: fw2 :: rest, _, hall => by
    have h1 := hall fw (by simp)
    have hrec := simplifyFWords_xspace_join (fw2 :: rest) (by simp)
      (fun w hw => hall w (List.mem_cons_of_mem _ hw))
    simp [simplifyFWords, joinWords, h1.1, h1.2, hrec]

/-- General form of the indent-retention divergence: for every measurement
environment, every parse of a rough line, and every indent width, when the
parsed words fit on a single packed line, flattening the packed output with
`exclude_indent=True` still yields the indent spaces in front of the
single-space-joined word texts.  The exclusion never fires because the
packer builds its indent `FWord`s with the default `is_indent=False`, while
the round-trip property would need the bare joined text here. -/
theorem pack_flatten_retains_indent (env : TBEnv) (text : Str) (li : FWord) (n : Nat)
    (formatting discard_formatting : Bool) (first : FWord) (ws : List FWord)
    (hparse : all_parse text formatting discard_formatting = first :: ws)
    (hfit : ∀ c ∈ cand_widths env ws
      ((env.measure (FWord.mk (List.replicate n ' ' ) false false false false)).1 +
        (env.measure first).1), c ≤ env.im_width) :
    (packRoughLine env (FWord.mk (List.replicate n ' ' ) false false false false) li
        (first :: ws)).map (fun l => FLine.simplify l true) =
      [List.replicate n ' ' ++ joinWords ((first :: ws).map FWord.txt)] := by
  have hflags : ∀ w ∈ first :: ws, w.xspace = true ∧ w.is_indent = false := by
    rw [← hparse]
    exact all_parse_word_flags text formatting discard_formatting
  have hjoin := simplifyFWords_xspace_join (first :: ws) (by simp) hflags
  rw [packRoughLine_no_overflow env _ li first ws hfit]
  simp [FLine.simplify, simplifyFWords, hjoin]

theorem wrapRoughLines_getLast_justifiable (env : TBEnv) (fi li : FWord)
    (formatting discard : Bool) :
    ∀ (rls : List Str) (cnt : Nat) (l : FLine),
      (wrapRoughLines env fi li formatting discard rls cnt).getLast? = some l →
      l.justifiable = false := by
  intro rls
  induction rls with
  | nil =>
    intro cnt l h
    simp [wrapRoughLines] at h
  | cons rl rest ih =>
    intro cnt l h
    simp only [wrapRoughLines] at h
    by_cases hemp : (all_parse (stripWhitespaceEnds rl) formatting discard).length = 0
    · rw [if_pos hemp] at h
      exact ih cnt l h
    · rw [if_neg hemp] at h
      by_cases hre : wrapRoughLines env fi li formatting discard rest (cnt + 1) = []
      · rw [hre, List.append_nil] at h
        rcases hfw : all_parse (stripWhitespaceEnds rl) formatting discard with _ | ⟨f, fs⟩
        · rw [hfw] at hemp
          exact absurd rfl hemp
        · rw [hfw] at h
          obtain ⟨mids, lastW, heq, _⟩ := packRoughLine_spec env
            (if cnt = 0 then fi else li) li f fs
          rw [heq, List.getLast?_append_of_ne_nil mids (by simp)] at h
          simp only [List.getLast?_singleton, Option.some.injEq] at h
          rw [← h]
      · rw [List.getLast?_append_of_ne_nil _ hre] at h
        exact ih (cnt + 1) l h

/-- Claim C4: in every rough-line block produced by the packer, the block's
final line (the line that ends the rough line) is not justifiable while
every interior wrapped line is; consequently the very last line of the
whole packed output is never justifiable; and the plain-mode conversion
preserves the flag. -/
theorem justifiable_flag_boundary :
    (∀ (env : TBEnv) (indent later_indent first : FWord) (rest : List FWord),
      ∃ mids lastWords,
        packRoughLine env indent later_indent (first :: rest) =
          mids ++ [FLine.mk lastWords false none] ∧
        ∀ x ∈ mids, x.justifiable = true) ∧
    (∀ (env : TBEnv) (text : Str) (paragraph_indent new_line_indent : Nat)
        (formatting discard_formatting : Bool) (l : FLine),
      (_wrap_text_TESTING env text paragraph_indent new_line_indent formatting
        discard_formatting).lines.getLast? = some l →
      l.justifiable = false) ∧
    (∀ (l : FLine) (e : Bool), (FLine.to_pline l e).justifiable = l.justifiable) := by
  refine ⟨?_, ?_, ?_⟩
  · intro env indent later_indent first rest
    exact packRoughLine_spec env indent later_indent first rest
  · intro env text pind nind formatting discard l h
    simp only [_wrap_text_TESTING] at h
    exact wrapRoughLines_getLast_justifiable env _ _ formatting discard _ 0 l h
  · intro l e
    rfl

/-- Witness for C4: the single line packed for `"hello"` is the last line of
the output and is not justifiable. -/
theorem justifiable_flag_boundary_witness :
    (FLine.mk [FWord.mk [] false false false false,
               FWord.mk ("hello".toList) false false true false] false none).justifiable =
      false :=
  justifiable_flag_boundary.2.1 env1 ("hello".toList) 0 0 true false
    (FLine.mk [FWord.mk [] false false false false,
               FWord.mk ("hello".toList) false false true false] false none)
    (by decide)

end Piltextbox
